import Mathlib

/-!
Shallow embedding of the go-itertools library (src/itertools.go).

A Go `iter.Seq[V]` driven to completion yields a finite stream of values;
a finite sequence is embedded as the `List V` of its yields.  Closures that
capture a mutable variable (the counters inside `Take`, `Drop`, `Chunks`)
are embedded by passing the captured state explicitly and returning its
final value, so that a second traversal of the same iterator value can be
expressed by feeding the final state back in.  A Go runtime panic
(division by zero in the key closure of `Chunks`) is embedded as `none`.
-/

namespace Itertools

universe u v w

variable {V : Type u} {W : Type v} {K : Type w}

/-- Embedding of `FromSlice`: yields all values of the slice in stored
order, so on collected sequences it is the identity. -/
def FromSlice (vs : List V) : List V := vs

/-- Embedding of `Filter`: tests each element of `seq` in order and yields
it only when it passes `p`. -/
def Filter (seq : List V) (p : V → Bool) : List V :=
  match seq with
  | [] => []
  | v :: rest => if p v then v :: Filter rest p else Filter rest p

/-- One complete traversal of the iterator `Take(seq, n)`.  In the source,
`Take` hands `TakeWhile` a closure over the mutable captured counter `n`;
the counter is threaded here as explicit state and its final value is
returned, since the closure keeps it across traversals of the same
iterator value. -/
def TakeTraverse : List V → Nat → List V × Nat
  | [], n => ([], n)
  | v :: rest, n =>
    if n = 0 then ([], n)
    else
      let r := TakeTraverse rest (n - 1)
      (v :: r.1, r.2)

/-- Elements yielded by a first (fresh) traversal of `Take(seq, n)`. -/
def Take (seq : List V) (n : Nat) : List V := (TakeTraverse seq n).1

/-- One complete traversal of the iterator `Drop(seq, n)`: `DropWhile`
discards elements while the captured counter is positive (decrementing it),
then yields the first failing element and everything after it. -/
def DropTraverse : List V → Nat → List V × Nat
  | [], n => ([], n)
  | v :: rest, n =>
    if n = 0 then (v :: rest, n) else DropTraverse rest (n - 1)

/-- Elements yielded by a first (fresh) traversal of `Drop(seq, n)`. -/
def Drop (seq : List V) (n : Nat) : List V := (DropTraverse seq n).1

/-- One complete traversal of `RepeatN(v, n) = Take(Repeat(v), n)`: the
infinite `Repeat` stream is cut off exactly when the counting closure of
`Take` reaches `0`, so the traversal is recursion on the captured counter,
whose final value is also returned. -/
def RepeatNTraverse (v : V) : Nat → List V × Nat
  | 0 => ([], 0)
  | n + 1 =>
    let r := RepeatNTraverse v n
    (v :: r.1, r.2)

/-- Embedding of `Chain`: yields all values of `seq1`, then all values of
`seq2`. -/
def Chain (seq1 seq2 : List V) : List V :=
  match seq1 with
  | [] => seq2
  | v :: rest => v :: Chain rest seq2

/-- Embedding of `InterleaveShortest`, with the loop unrolled over one
`seq1` turn followed by one `seq2` turn (the `isSeq1Turn` flag of the
source is eliminated by the unrolling; the sequence always starts on
`seq1`'s turn).  The side whose turn it is being exhausted ends the
output. -/
def InterleaveShortest : List V → List V → List V
  | [], _ => []
  | a :: _, [] => [a]
  | a :: as, b :: bs => a :: b :: InterleaveShortest as bs

/-- Embedding of `InterleaveLongest`, unrolled the same way: when the side
whose turn it is is exhausted the loop breaks, the turn flag is flipped
back, and the surviving side is drained to its end. -/
def InterleaveLongest : List V → List V → List V
  | [], bs => bs
  | a :: as, [] => a :: as
  | a :: as, b :: bs => a :: b :: InterleaveLongest as bs

/-- Embedding of `ZipShortest`: pulls one element from each side per step,
stopping as soon as either pull fails (an element already pulled from the
other side that step is discarded). -/
def ZipShortest : List V → List W → List (V × W)
  | [], _ => []
  | _ :: _, [] => []
  | v :: as, w :: bs => (v, w) :: ZipShortest as bs

/-- Loop body of `ChunkBy`: `vs` is the group being accumulated and
`lastK` its key; a pulled element whose key differs yields the accumulated
group and starts a fresh one, and exhaustion of the input yields the final
accumulated group. -/
def chunkByGo [DecidableEq K] (key : V → K) : List V → List V → K → List (List V)
  | vs, [], _ => [vs]
  | vs, v :: rest, lastK =>
    if key v ≠ lastK then vs :: chunkByGo key [v] rest (key v)
    else chunkByGo key (vs ++ [v]) rest lastK

/-- Embedding of `ChunkBy`: groups consecutive values of `seq` sharing the
same `key` and yields the groups (snapshot-copied via `FromSlice`) in
order; an empty input yields no groups. -/
def ChunkBy [DecidableEq K] (seq : List V) (key : V → K) : List (List V) :=
  match seq with
  | [] => []
  | v :: rest => chunkByGo key [v] rest (key v)

/-- Key closure of `Chunks` (`k := i / s; i++; return k`).  Go integer
division panics when `s = 0`; the panic is embedded as `none`. -/
def chunksKey (s i : Nat) : Option (Nat × Nat) :=
  if s = 0 then none else some (i / s, i + 1)

/-- Loop body of `ChunkBy` as instantiated by `Chunks`: the key closure
captures the mutable counter `i`, threaded here as explicit state. -/
def chunksGo (s : Nat) : List V → List V → Nat → Nat → Option (List (List V) × Nat)
  | vs, [], _, i => some ([vs], i)
  | vs, v :: rest, lastK, i =>
    match chunksKey s i with
    | none => none
    | some (k, i2) =>
      if k ≠ lastK then
        (chunksGo s [v] rest k i2).map (fun r => (vs :: r.1, r.2))
      else chunksGo s (vs ++ [v]) rest lastK i2

/-- One complete traversal of `Chunks(seq, s)` from counter value `i`: the
counter is created when `Chunks` is called, not when a traversal starts,
so its final value is returned for the next traversal of the same iterator
value.  The result is `none` when the key closure divides by zero. -/
def ChunksTraverse (seq : List V) (s : Nat) (i : Nat) : Option (List (List V) × Nat) :=
  match seq with
  | [] => some ([], i)
  | v :: rest =>
    match chunksKey s i with
    | none => none
    | some (k, i2) => chunksGo s [v] rest k i2

/-- Groups yielded by a first (fresh) traversal of `Chunks(seq, s)`, or
`none` when the key closure divides by zero. -/
def Chunks (seq : List V) (s : Nat) : Option (List (List V)) :=
  (ChunksTraverse seq s 0).map (fun r => r.1)

/-- Loop of `Cycle` driven by the counting consumer of `Take`: `orig` is
the buffer filled by the first pass, `cur` what remains of the pass being
replayed, and `m` how many more elements the consumer accepts.  When `cur`
runs out, the outer `for len(vs) > 0` loop of the source exits if the
buffer is empty and otherwise restarts the replay, immediately yielding
the first buffered element. -/
def cycleTakeGo (orig : List V) : List V → Nat → List V
  | _, 0 => []
  | [], m + 1 =>
    match orig with
    | [] => []
    | o :: os => o :: cycleTakeGo orig os m
  | v :: rest, m + 1 => v :: cycleTakeGo orig rest m

/-- Elements yielded by `Take(Cycle(seq), m)` for a fresh `Cycle(seq)`:
the first pass yields the elements of `seq` while buffering them, after
which the buffered slice is replayed indefinitely (or the iterator stops
at once if the buffer is empty). -/
def CycleTake (seq : List V) (m : Nat) : List V := cycleTakeGo seq seq m

/-- Loop of `MinFunc`: `minV` is the running minimum, replaced only by an
element comparing strictly smaller under `cmp`. -/
def minFuncGo (cmp : V → V → Int) (minV : V) : List V → V
  | [] => minV
  | v :: rest =>
    if cmp v minV < 0 then minFuncGo cmp v rest else minFuncGo cmp minV rest

/-- Embedding of `MinFunc`: pulls a first element, returning the zero
value (embedded as `Inhabited.default`) and `false` when there is none,
then folds the remaining elements with `minFuncGo`. -/
def MinFunc [Inhabited V] (seq : List V) (cmp : V → V → Int) : V × Bool :=
  match seq with
  | [] => (default, false)
  | v :: rest => (minFuncGo cmp v rest, true)

/-- Loop of `MaxFunc`: `maxV` is the running maximum, replaced only by an
element comparing strictly greater under `cmp`. -/
def maxFuncGo (cmp : V → V → Int) (maxV : V) : List V → V
  | [] => maxV
  | v :: rest =>
    if cmp v maxV > 0 then maxFuncGo cmp v rest else maxFuncGo cmp maxV rest

/-- Embedding of `MaxFunc`: pulls a first element, returning the zero
value (embedded as `Inhabited.default`) and `false` when there is none,
then folds the remaining elements with `maxFuncGo`. -/
def MaxFunc [Inhabited V] (seq : List V) (cmp : V → V → Int) : V × Bool :=
  match seq with
  | [] => (default, false)
  | v :: rest => (maxFuncGo cmp v rest, true)

/-- Fully alternating phase of an interleave: each pulled pair contributes
its two elements in order. -/
def zipCat : List V → List V → List V
  | [], _ => []
  | _, [] => []
  | a :: as, b :: bs => a :: b :: zipCat as bs

/-- Key of a yielded group, read off its first element. -/
def groupKey (key : V → K) (g : List V) : Option K := g.head?.map key

/-! Supporting lemmas shared between the claim theorems. -/

theorem zipCat_length (as bs : List V) :
    (zipCat as bs).length = 2 * min as.length bs.length := by
  induction as generalizing bs with
  | nil => simp [zipCat]
  | cons a as ih =>
    cases bs with
    | nil => simp [zipCat]
    | cons b bs => simp [zipCat, ih, Nat.succ_min_succ, Nat.mul_succ]

theorem zipShortest_eq_zip (as : List V) (bs : List W) :
    ZipShortest as bs = as.zip bs := by
  induction as generalizing bs with
  | nil => simp [ZipShortest]
  | cons a as ih =>
    cases bs with
    | nil => simp [ZipShortest]
    | cons b bs => simp [ZipShortest, ih, List.zip]

theorem zip_take_min (as : List V) (bs : List W) :
    (as.take (min as.length bs.length)).zip (bs.take (min as.length bs.length)) =
      as.zip bs := by
  induction as generalizing bs with
  | nil => simp
  | cons a as ih =>
    cases bs with
    | nil => simp
    | cons b bs => simpa [Nat.succ_min_succ, List.zip] using ih bs

theorem interleaveShortest_eq (as bs : List V) :
    InterleaveShortest as bs = zipCat as bs ++ (as.drop bs.length).take 1 := by
  induction as generalizing bs with
  | nil => simp [InterleaveShortest, zipCat]
  | cons a as ih =>
    cases bs with
    | nil => simp [InterleaveShortest, zipCat]
    | cons b bs => simp [InterleaveShortest, zipCat, ih bs]

theorem interleaveLongest_eq (as bs : List V) :
    InterleaveLongest as bs =
      zipCat as bs ++ as.drop bs.length ++ bs.drop as.length := by
  induction as generalizing bs with
  | nil => simp [InterleaveLongest, zipCat]
  | cons a as ih =>
    cases bs with
    | nil => simp [InterleaveLongest, zipCat]
    | cons b bs => simp [InterleaveLongest, zipCat, ih bs]

theorem takeTraverse_fst (l : List V) (n : Nat) :
    (TakeTraverse l n).1 = l.take n := by
  induction l generalizing n with
  | nil => simp [TakeTraverse]
  | cons v rest ih =>
    cases n with
    | zero => simp [TakeTraverse]
    | succ n => simp [TakeTraverse, ih]

theorem takeTraverse_snd (l : List V) (n : Nat) (h : n ≤ l.length) :
    (TakeTraverse l n).2 = 0 := by
  induction l generalizing n with
  | nil =>
    have : n = 0 := by simpa using h
    simp [TakeTraverse, this]
  | cons v rest ih =>
    cases n with
    | zero => simp [TakeTraverse]
    | succ n =>
      simp only [TakeTraverse, Nat.succ_ne_zero, if_false]
      exact ih n (by simpa using h)

theorem dropTraverse_fst (l : List V) (n : Nat) :
    (DropTraverse l n).1 = l.drop n := by
  induction l generalizing n with
  | nil => simp [DropTraverse]
  | cons v rest ih =>
    cases n with
    | zero => simp [DropTraverse]
    | succ n => simp [DropTraverse, ih]

theorem repeatNTraverse_fst (v : V) (n : Nat) :
    (RepeatNTraverse v n).1 = List.replicate n v := by
  induction n with
  | zero => simp [RepeatNTraverse]
  | succ n ih => simp [RepeatNTraverse, ih, List.replicate_succ]

theorem chunksGo_flatten {s : Nat} (hs : 1 ≤ s) (rest : List V) :
    ∀ (vs : List V) (lastK i : Nat),
      ∃ r, chunksGo s vs rest lastK i = some r ∧ r.1.flatten = vs ++ rest := by
  induction rest with
  | nil => intro vs lastK i; exact ⟨([vs], i), rfl, by simp⟩
  | cons v rest ih =>
    intro vs lastK i
    have hk : chunksKey s i = some (i / s, i + 1) := by
      simp only [chunksKey, if_neg (by omega : ¬s = 0)]
    by_cases hne : i / s = lastK
    · obtain ⟨r, hr, hf⟩ := ih (vs ++ [v]) lastK (i + 1)
      refine ⟨r, by simp [chunksGo, hk, hne, hr], ?_⟩
      rw [hf]; simp
    · obtain ⟨r, hr, hf⟩ := ih [v] (i / s) (i + 1)
      refine ⟨(vs :: r.1, r.2), by simp [chunksGo, hk, hne, hr], ?_⟩
      simp [hf]

theorem chunksTraverse_flatten {s : Nat} (hs : 1 ≤ s) (l : List V) (i : Nat) :
    ∃ r, ChunksTraverse l s i = some r ∧ r.1.flatten = l := by
  cases l with
  | nil => exact ⟨([], i), rfl, rfl⟩
  | cons v rest =>
    have hk : chunksKey s i = some (i / s, i + 1) := by
      simp only [chunksKey, if_neg (by omega : ¬s = 0)]
    obtain ⟨r, hr, hf⟩ := chunksGo_flatten hs rest [v] (i / s) (i + 1)
    exact ⟨r, by simp [ChunksTraverse, hk, hr], by simpa using hf⟩

theorem chain_eq_append (xs ys : List V) : Chain xs ys = xs ++ ys := by
  induction xs with
  | nil => rfl
  | cons x xs ih => simp [Chain, ih]

theorem cycleTakeGo_append (orig : List V) (cur : List V) (m : Nat) :
    cycleTakeGo orig cur (cur.length + m) = cur ++ cycleTakeGo orig [] m := by
  induction cur with
  | nil => simp
  | cons v rest ih =>
    rw [List.length_cons, Nat.add_right_comm]
    simp [cycleTakeGo, ih]

theorem cycleTakeGo_restart (o : V) (os : List V) (m : Nat) :
    cycleTakeGo (o :: os) [] m = cycleTakeGo (o :: os) (o :: os) m := by
  cases m with
  | zero => rfl
  | succ m => rfl

theorem groupKey_uniform (key : V → K) (vs : List V) (lastK : K)
    (h1 : vs ≠ []) (h2 : ∀ x ∈ vs, key x = lastK) :
    groupKey key vs = some lastK := by
  cases vs with
  | nil => exact absurd rfl h1
  | cons v tl => simp [groupKey, h2 v (by simp)]

theorem chunkByGo_flatten [DecidableEq K] (key : V → K) (rest : List V) :
    ∀ (vs : List V) (lastK : K),
      (chunkByGo key vs rest lastK).flatten = vs ++ rest := by
  induction rest with
  | nil => intro vs lastK; simp [chunkByGo]
  | cons v rest ih =>
    intro vs lastK
    by_cases h : key v = lastK
    · simp [chunkByGo, h, ih]
    · simp [chunkByGo, h, ih]

theorem chunkByGo_uniform [DecidableEq K] (key : V → K) (rest : List V) :
    ∀ (vs : List V) (lastK : K), (∀ x ∈ vs, key x = lastK) →
      ∀ g ∈ chunkByGo key vs rest lastK, ∃ k, ∀ x ∈ g, key x = k := by
  induction rest with
  | nil =>
    intro vs lastK hvs g hg
    simp [chunkByGo] at hg
    exact ⟨lastK, hg ▸ hvs⟩
  | cons v rest ih =>
    intro vs lastK hvs g hg
    by_cases h : key v = lastK
    · refine ih (vs ++ [v]) lastK ?_ g (by simpa [chunkByGo, h] using hg)
      intro x hx
      rcases List.mem_append.1 hx with hx | hx
      · exact hvs x hx
      · simp at hx; subst hx; exact h
    · rcases (by simpa [chunkByGo, h] using hg :
        g = vs ∨ g ∈ chunkByGo key [v] rest (key v)) with hgv | hgr
      · exact ⟨lastK, hgv ▸ hvs⟩
      · exact ih [v] (key v) (by simp) g hgr

theorem chunkByGo_head [DecidableEq K] (key : V → K) (rest : List V) :
    ∀ (vs : List V) (lastK : K), vs ≠ [] → (∀ x ∈ vs, key x = lastK) →
      ∃ g gs, chunkByGo key vs rest lastK = g :: gs ∧
        groupKey key g = some lastK := by
  induction rest with
  | nil =>
    intro vs lastK h1 h2
    exact ⟨vs, [], by simp [chunkByGo], groupKey_uniform key vs lastK h1 h2⟩
  | cons v rest ih =>
    intro vs lastK h1 h2
    by_cases h : key v = lastK
    · have huni : ∀ x ∈ vs ++ [v], key x = lastK := by
        intro x hx
        rcases List.mem_append.1 hx with hx | hx
        · exact h2 x hx
        · simp at hx; subst hx; exact h
      obtain ⟨g, gs, hgg, hgk⟩ := ih (vs ++ [v]) lastK (by simp) huni
      exact ⟨g, gs, by simpa [chunkByGo, h] using hgg, hgk⟩
    · refine ⟨vs, chunkByGo key [v] rest (key v), by simp [chunkByGo, h], ?_⟩
      exact groupKey_uniform key vs lastK h1 h2

theorem chunkByGo_chain [DecidableEq K] (key : V → K) (rest : List V) :
    ∀ (vs : List V) (lastK : K), vs ≠ [] → (∀ x ∈ vs, key x = lastK) →
      List.Chain' (fun g h => groupKey key g ≠ groupKey key h)
        (chunkByGo key vs rest lastK) := by
  induction rest with
  | nil => intro vs lastK _ _; simp [chunkByGo]
  | cons v rest ih =>
    intro vs lastK h1 h2
    by_cases h : key v = lastK
    · have huni : ∀ x ∈ vs ++ [v], key x = lastK := by
        intro x hx
        rcases List.mem_append.1 hx with hx | hx
        · exact h2 x hx
        · simp at hx; subst hx; exact h
      simpa [chunkByGo, h] using ih (vs ++ [v]) lastK (by simp) huni
    · obtain ⟨g, gs, hgg, hgk⟩ := chunkByGo_head key rest [v] (key v)
        (by simp) (by simp)
      have hchain := ih [v] (key v) (by simp) (by simp)
      have hgoal : List.Chain' (fun g h => groupKey key g ≠ groupKey key h)
          (vs :: chunkByGo key [v] rest (key v)) := by
        rw [hgg]
        refine List.chain'_cons.2 ⟨?_, hgg ▸ hchain⟩
        rw [groupKey_uniform key vs lastK h1 h2, hgk]
        intro hcontra
        exact h (Option.some.inj hcontra).symm
      simpa [chunkByGo, h] using hgoal

/-! Claim theorems. -/

/-- C10: Filter preserves relative order: for every finite sequence and
predicate, collecting `Filter(seq, p)` yields exactly the elements of the
collected input that satisfy `p`, in their original relative order, i.e.
it equals the standard list filter applied to the collected input. -/
theorem Filter_eq_list_filter (seq : List V) (p : V → Bool) :
    Filter seq p = seq.filter p := by
  induction seq with
  | nil => rfl
  | cons v rest ih => simp [Filter, List.filter_cons, ih]

/-- C4: ZipShortest yields the pairs in order and stops as soon as either
side is exhausted: the collected output is exactly the pairwise zip of the
first `min(m, n)` elements of each side, and its length is `min(m, n)`. -/
theorem zipShortest_spec :
    (∀ (as : List V) (bs : List W),
      ZipShortest as bs =
        (as.take (min as.length bs.length)).zip (bs.take (min as.length bs.length))) ∧
    (∀ (as : List V) (bs : List W),
      (ZipShortest as bs).length = min as.length bs.length) := by
  constructor
  · intro as bs
    rw [zipShortest_eq_zip, zip_take_min]
  · intro as bs
    rw [zipShortest_eq_zip]
    exact List.length_zip as bs

/-- C2: InterleaveShortest alternates starting with `a` and stops exactly
when the side whose turn it is is exhausted: the collected output is the
alternation `a1, b1, a2, b2, …` (one extra element of `a` exactly when `a`
is longer), its length is `2*m` when `m ≤ n` and `2*n + 1` when `m > n`,
and `InterleaveShortest(["abc","ghi"], ["def"])` collects to
`["abc","def","ghi"]`. -/
theorem interleaveShortest_spec :
    (∀ (as bs : List V),
      InterleaveShortest as bs = zipCat as bs ++ (as.drop bs.length).take 1) ∧
    (∀ (as bs : List V),
      (InterleaveShortest as bs).length =
        if as.length ≤ bs.length then 2 * as.length else 2 * bs.length + 1) ∧
    InterleaveShortest ["abc", "ghi"] ["def"] = ["abc", "def", "ghi"] := by
  refine ⟨fun as bs => interleaveShortest_eq as bs, fun as bs => ?_, by decide⟩
  rw [interleaveShortest_eq, List.length_append, zipCat_length,
    List.length_take, List.length_drop]
  split <;> omega

/-- C3: InterleaveLongest alternates starting with `a` until one side is
exhausted, then permanently drains the surviving side in order: the
collected output is the alternating phase `a1, b1, a2, b2, …` followed by
the survivor's remaining elements, and its length is `m + n`. -/
theorem interleaveLongest_spec :
    (∀ (as bs : List V),
      InterleaveLongest as bs =
        zipCat as bs ++ as.drop bs.length ++ bs.drop as.length) ∧
    (∀ (as bs : List V),
      (InterleaveLongest as bs).length = as.length + bs.length) := by
  refine ⟨fun as bs => interleaveLongest_eq as bs, fun as bs => ?_⟩
  rw [interleaveLongest_eq, List.length_append, List.length_append,
    zipCat_length, List.length_drop, List.length_drop]
  omega

/-- C1 counterexample: driving the same `Take([0,1,2], 2)` iterator value
to completion twice yields `[0, 1]` on the first run but `[]` on the
second, because the first traversal leaves the captured counter at `0`;
the two runs therefore do not produce the same elements. -/
theorem take_second_traversal_differs :
    (TakeTraverse [0, 1, 2] 2).1 = [0, 1] ∧
    (TakeTraverse [0, 1, 2] (TakeTraverse [0, 1, 2] 2).2).1 = [] ∧
    (TakeTraverse [0, 1, 2] 2).1 ≠
      (TakeTraverse [0, 1, 2] (TakeTraverse [0, 1, 2] 2).2).1 := by decide

/-- C1 (amended): each traversal is a deterministic function of the input
elements and of the counter state captured at construction time.  A first
(fresh) traversal of `Take(seq, n)`, `Drop(seq, n)`, `RepeatN(v, n)` and
`Chunks(seq, s)` (for `s ≥ 1`) deterministically yields, respectively, the
first `n` elements, all but the first `n` elements, `n` copies of `v`, and
groups that concatenate back to the input; but because traversal mutates
the captured counter, a second complete traversal of the same value need
not repeat the first: for `Take(seq, n)` with `0 < n ≤ length(seq)` the
second traversal yields nothing. -/
theorem iterators_single_use (l : List V) (n s : Nat) (v : V) :
    (TakeTraverse l n).1 = l.take n ∧
    (DropTraverse l n).1 = l.drop n ∧
    (RepeatNTraverse v n).1 = List.replicate n v ∧
    (1 ≤ s → ∃ r, ChunksTraverse l s 0 = some r ∧ r.1.flatten = l) ∧
    (0 < n → n ≤ l.length → (TakeTraverse l (TakeTraverse l n).2).1 = []) := by
  refine ⟨takeTraverse_fst l n, dropTraverse_fst l n, repeatNTraverse_fst v n,
    fun hs => chunksTraverse_flatten hs l 0, fun _ hn => ?_⟩
  rw [takeTraverse_snd l n hn, takeTraverse_fst]
  simp

theorem iterators_single_use_witness :
    1 ≤ 2 ∧ 0 < 2 ∧ 2 ≤ ([0, 1, 2] : List Nat).length ∧
    (∃ r, ChunksTraverse ([0, 1, 2] : List Nat) 2 0 = some r ∧
      r.1.flatten = [0, 1, 2]) ∧
    (TakeTraverse ([0, 1, 2] : List Nat)
      (TakeTraverse ([0, 1, 2] : List Nat) 2).2).1 = [] :=
  ⟨by decide, by decide, by decide,
    (iterators_single_use [0, 1, 2] 2 2 0).2.2.2.1 (by decide),
    (iterators_single_use [0, 1, 2] 2 2 0).2.2.2.2 (by decide) (by decide)⟩

/-- C6: Chunks requires `size ≥ 1`: with `size = 0` the key closure
divides by zero on the first element (embedded as `none`, an unreported
abnormal outcome), while for `size ≥ 1` every key computation succeeds;
and `Chunks(range(0,10), 2)` yields exactly the groups
`[0,1], [2,3], [4,5], [6,7], [8,9]`. -/
theorem chunks_size_spec (l : List V) (s : Nat) :
    (l ≠ [] → Chunks l 0 = none) ∧
    (1 ≤ s → (Chunks l s).isSome = true) ∧
    Chunks (List.range 10) 2 =
      some [[0, 1], [2, 3], [4, 5], [6, 7], [8, 9]] := by
  refine ⟨?_, ?_, by decide⟩
  · intro hne
    cases l with
    | nil => exact absurd rfl hne
    | cons v rest => simp [Chunks, ChunksTraverse, chunksKey]
  · intro hs
    obtain ⟨r, hr, _⟩ := chunksTraverse_flatten hs l 0
    simp [Chunks, hr]

theorem chunks_size_spec_witness :
    Chunks ([5] : List Nat) 0 = none ∧
    (Chunks ([5] : List Nat) 2).isSome = true :=
  ⟨(chunks_size_spec [5] 2).1 (by decide), (chunks_size_spec [5] 2).2.1 (by decide)⟩

/-- C7: for every finite sequence and every `n ≤ length(seq)`, collecting
`Chain(Take(seq, n), Drop(seq, n))` produces exactly the same elements, in
the same order, as collecting the sequence itself. -/
theorem chain_take_drop (l : List V) (n : Nat) (h : n ≤ l.length) :
    Chain (Take l n) (Drop l n) = l := by
  rw [chain_eq_append, Take, Drop, takeTraverse_fst, dropTraverse_fst,
    List.take_append_drop]

theorem chain_take_drop_witness :
    2 ≤ ([3, 4, 5] : List Nat).length ∧
    Chain (Take ([3, 4, 5] : List Nat) 2) (Drop ([3, 4, 5] : List Nat) 2) =
      [3, 4, 5] :=
  ⟨by decide, chain_take_drop [3, 4, 5] 2 (by decide)⟩

/-- C8: Cycle of the empty sequence yields nothing and terminates (the
outer replay loop is guarded by the buffer being nonempty), and for every
nonempty finite sequence and every `k ≥ 0`, taking `k * length(seq)`
elements of `Cycle(seq)` yields exactly the elements of the sequence
repeated `k` times in order. -/
theorem cycle_spec (l : List V) (m k : Nat) :
    CycleTake ([] : List V) m = [] ∧
    (l ≠ [] → CycleTake l (k * l.length) = (List.replicate k l).flatten) := by
  constructor
  · cases m with
    | zero => rfl
    | succ m => rfl
  · intro hl
    induction k with
    | zero => simp [CycleTake, cycleTakeGo]
    | succ k ih =>
      have h1 : (k + 1) * l.length = l.length + k * l.length := by ring
      rw [CycleTake, h1, cycleTakeGo_append]
      cases l with
      | nil => exact absurd rfl hl
      | cons o os =>
        rw [cycleTakeGo_restart, ← CycleTake, ih]
        simp [List.replicate_succ]

theorem cycle_spec_witness :
    ([1, 2] : List Nat) ≠ [] ∧
    CycleTake ([1, 2] : List Nat) (3 * ([1, 2] : List Nat).length) =
      (List.replicate 3 ([1, 2] : List Nat)).flatten :=
  ⟨by decide, (cycle_spec [1, 2] 0 3).2 (by decide)⟩

/-- C5: for every finite sequence and key function, concatenating the
groups yielded by ChunkBy, in yield order, reproduces the collected input
in its original order; every element within one group maps to the same
key; the keys of any two adjacent groups differ; and ChunkBy over an empty
sequence yields zero groups. -/
theorem chunkBy_spec [DecidableEq K] (seq : List V) (key : V → K) :
    (ChunkBy seq key).flatten = seq ∧
    (∀ g ∈ ChunkBy seq key, ∀ x ∈ g, ∀ y ∈ g, key x = key y) ∧
    List.Chain' (fun g h => groupKey key g ≠ groupKey key h)
      (ChunkBy seq key) ∧
    ChunkBy ([] : List V) key = [] := by
  refine ⟨?_, ?_, ?_, rfl⟩
  · cases seq with
    | nil => rfl
    | cons v rest => simpa using chunkByGo_flatten key rest [v] (key v)
  · cases seq with
    | nil => intro g hg; simp [ChunkBy] at hg
    | cons v rest =>
      intro g hg x hx y hy
      obtain ⟨k, hk⟩ := chunkByGo_uniform key rest [v] (key v) (by simp) g hg
      rw [hk x hx, hk y hy]
  · cases seq with
    | nil => simp [ChunkBy]
    | cons v rest => exact chunkByGo_chain key rest [v] (key v) (by simp) (by simp)

theorem chunkBy_spec_witness :
    (ChunkBy ([1, 1, 2] : List Nat) (fun x => x)).flatten = [1, 1, 2] :=
  (chunkBy_spec [1, 1, 2] (fun x => x)).1

theorem minFuncGo_spec (cmp : V → V → Int)
    (h1 : ∀ a b c, cmp a b < 0 → cmp b c < 0 → cmp a c < 0)
    (h2 : ∀ a b c, cmp a b < 0 → ¬cmp c b < 0 → cmp a c < 0)
    (h3 : ∀ a, ¬cmp a a < 0) (rest : List V) :
    ∀ m : V,
      (minFuncGo cmp m rest = m ∧ ∀ x ∈ rest, ¬cmp x m < 0) ∨
      (∃ p q, rest = p ++ minFuncGo cmp m rest :: q ∧
        cmp (minFuncGo cmp m rest) m < 0 ∧
        (∀ x ∈ p, cmp (minFuncGo cmp m rest) x < 0) ∧
        (∀ x ∈ rest, ¬cmp x (minFuncGo cmp m rest) < 0)) := by
  have asym : ∀ a b, cmp a b < 0 → ¬cmp b a < 0 :=
    fun a b hab hba => h3 a (h1 a b a hab hba)
  induction rest with
  | nil => intro m; exact Or.inl ⟨rfl, by simp⟩
  | cons v rest ih =>
    intro m
    by_cases hvm : cmp v m < 0
    · have hr : minFuncGo cmp m (v :: rest) = minFuncGo cmp v rest := by
        simp [minFuncGo, hvm]
      rcases ih v with ⟨heq, hall⟩ | ⟨p, q, hsplit, hrm, hp, hall⟩
      · rw [hr, heq]
        refine Or.inr ⟨[], rest, by simp, hvm, by simp, ?_⟩
        intro x hx
        rcases List.mem_cons.1 hx with rfl | hx
        · exact h3 x
        · exact hall x hx
      · rw [hr]
        refine Or.inr ⟨v :: p, q, by rw [List.cons_append, ← hsplit],
          h1 _ v m hrm hvm, ?_, ?_⟩
        · intro x hx
          rcases List.mem_cons.1 hx with rfl | hx
          · exact hrm
          · exact hp x hx
        · intro x hx
          rcases List.mem_cons.1 hx with rfl | hx
          · exact asym _ _ hrm
          · exact hall x hx
    · have hr : minFuncGo cmp m (v :: rest) = minFuncGo cmp m rest := by
        simp [minFuncGo, hvm]
      rcases ih m with ⟨heq, hall⟩ | ⟨p, q, hsplit, hrm, hp, hall⟩
      · rw [hr, heq]
        refine Or.inl ⟨rfl, ?_⟩
        intro x hx
        rcases List.mem_cons.1 hx with rfl | hx
        · exact hvm
        · exact hall x hx
      · rw [hr]
        refine Or.inr ⟨v :: p, q, by rw [List.cons_append, ← hsplit], hrm, ?_, ?_⟩
        · intro x hx
          rcases List.mem_cons.1 hx with rfl | hx
          · exact h2 _ m x hrm hvm
          · exact hp x hx
        · intro x hx
          rcases List.mem_cons.1 hx with rfl | hx
          · exact fun hcon => hvm (h1 _ _ _ hcon hrm)
          · exact hall x hx

theorem maxFuncGo_eq_minFuncGo (cmp : V → V → Int) (rest : List V) :
    ∀ m : V, maxFuncGo cmp m rest = minFuncGo (fun a b => -cmp a b) m rest := by
  induction rest with
  | nil => intro m; rfl
  | cons v rest ih =>
    intro m
    by_cases hv : cmp v m > 0
    · simp [maxFuncGo, minFuncGo, hv, neg_lt_zero, ih]
    · simp [maxFuncGo, minFuncGo, hv, neg_lt_zero, ih]

/-- C9: on empty input MinFunc and MaxFunc return the zero value with
`found = false`; on nonempty input they return, with `found = true`, the
first-seen minimal (resp. maximal) element: the result occurs in the
sequence, no element compares strictly below (resp. above) it, and it
compares strictly below (resp. above) every element preceding its
occurrence, so an element comparing equal to the running extreme never
replaces it.  The hypotheses state that `cmp` behaves as a comparator. -/
theorem minMaxFunc_spec [Inhabited V] (cmp : V → V → Int)
    (h1 : ∀ a b c, cmp a b < 0 → cmp b c < 0 → cmp a c < 0)
    (h2 : ∀ a b c, cmp a b < 0 → ¬cmp c b < 0 → cmp a c < 0)
    (h3 : ∀ a, ¬cmp a a < 0)
    (g1 : ∀ a b c, cmp a b > 0 → cmp b c > 0 → cmp a c > 0)
    (g2 : ∀ a b c, cmp a b > 0 → ¬cmp c b > 0 → cmp a c > 0)
    (g3 : ∀ a, ¬cmp a a > 0) :
    MinFunc ([] : List V) cmp = (default, false) ∧
    MaxFunc ([] : List V) cmp = (default, false) ∧
    (∀ l : List V, l ≠ [] →
      (MinFunc l cmp).2 = true ∧
      ∃ p q, l = p ++ (MinFunc l cmp).1 :: q ∧
        (∀ x ∈ p, cmp (MinFunc l cmp).1 x < 0) ∧
        (∀ x ∈ l, ¬cmp x (MinFunc l cmp).1 < 0)) ∧
    (∀ l : List V, l ≠ [] →
      (MaxFunc l cmp).2 = true ∧
      ∃ p q, l = p ++ (MaxFunc l cmp).1 :: q ∧
        (∀ x ∈ p, cmp (MaxFunc l cmp).1 x > 0) ∧
        (∀ x ∈ l, ¬cmp x (MaxFunc l cmp).1 > 0)) := by
  have h1' : ∀ a b c : V, -cmp a b < 0 → -cmp b c < 0 → -cmp a c < 0 := by
    intro a b c hab hbc
    simp only [neg_lt_zero] at hab hbc ⊢
    exact g1 a b c hab hbc
  have h2' : ∀ a b c : V, -cmp a b < 0 → ¬(-cmp c b) < 0 → -cmp a c < 0 := by
    intro a b c hab hcb
    simp only [neg_lt_zero] at hab hcb ⊢
    exact g2 a b c hab hcb
  have h3' : ∀ a : V, ¬(-cmp a a) < 0 := by
    intro a
    simp only [neg_lt_zero]
    exact g3 a
  refine ⟨rfl, rfl, ?_, ?_⟩
  · intro l hl
    cases l with
    | nil => exact absurd rfl hl
    | cons v rest =>
      refine ⟨rfl, ?_⟩
      have hmin : (MinFunc (v :: rest) cmp).1 = minFuncGo cmp v rest := rfl
      rcases minFuncGo_spec cmp h1 h2 h3 rest v with
        ⟨heq, hall⟩ | ⟨p, q, hsplit, hrm, hp, hall⟩
      · refine ⟨[], rest, by simp [hmin, heq], by simp, ?_⟩
        intro x hx
        rw [hmin, heq]
        rcases List.mem_cons.1 hx with rfl | hx
        · exact h3 x
        · exact hall x hx
      · refine ⟨v :: p, q, by rw [hmin, List.cons_append, ← hsplit], ?_, ?_⟩
        · intro x hx
          rw [hmin]
          rcases List.mem_cons.1 hx with rfl | hx
          · exact hrm
          · exact hp x hx
        · intro x hx
          rw [hmin]
          rcases List.mem_cons.1 hx with rfl | hx
          · exact fun hcon => h3 _ (h1 _ _ _ hcon hrm)
          · exact hall x hx
  · intro l hl
    cases l with
    | nil => exact absurd rfl hl
    | cons v rest =>
      refine ⟨rfl, ?_⟩
      have hmax : (MaxFunc (v :: rest) cmp).1 =
          minFuncGo (fun a b => -cmp a b) v rest := by
        show maxFuncGo cmp v rest = _
        exact maxFuncGo_eq_minFuncGo cmp rest v
      rcases minFuncGo_spec (fun a b => -cmp a b) h1' h2' h3' rest v with
        ⟨heq, hall⟩ | ⟨p, q, hsplit, hrm, hp, hall⟩
      · refine ⟨[], rest, by simp [hmax, heq], by simp, ?_⟩
        intro x hx
        rw [hmax, heq]
        rcases List.mem_cons.1 hx with rfl | hx
        · exact g3 x
        · have := hall x hx
          simpa only [neg_lt_zero] using this
      · refine ⟨v :: p, q, by rw [hmax, List.cons_append, ← hsplit], ?_, ?_⟩
        · intro x hx
          rw [hmax]
          rcases List.mem_cons.1 hx with rfl | hx
          · simpa only [neg_lt_zero] using hrm
          · simpa only [neg_lt_zero] using hp x hx
        · intro x hx
          rw [hmax]
          rcases List.mem_cons.1 hx with rfl | hx
          · intro hcon
            exact h3' _ (h1' _ _ _ (by simpa only [neg_lt_zero] using hcon) hrm)
          · simpa only [neg_lt_zero] using hall x hx

/-- Comparator on booleans (`false` before `true`) used to witness the
aggregation theorem. -/
def bcmp (a b : Bool) : Int := (cond a 1 0) - cond b 1 0

theorem minMaxFunc_spec_witness :
    MinFunc ([] : List Bool) bcmp = (default, false) ∧
    (MinFunc [true, false] bcmp).2 = true := by
  have h := minMaxFunc_spec bcmp (by decide) (by decide) (by decide)
    (by decide) (by decide) (by decide)
  exact ⟨h.1, (h.2.2.1 [true, false] (by decide)).1⟩

end Itertools
